import Mathlib

/-!
Shallow embedding of the SocialTradeBuilder core: the tweet command parser
(`parseCommand`, `validateCommand`), the Twitter polling scheduler step
(`pollBotMentions` success / rate-limit paths), the in-memory rate-limit
tracker (`isRateLimited`), the wallet funds check (`validateWalletFunds`)
and the `/api/process-command` trade orchestration flow.

JS strings are modelled as lists of UTF-16 code units (`JText`); all the
regular expressions in the source (`ACTION_PATTERN`, `AMOUNT_PATTERN`,
`TOKEN_PATTERN`, `CONNECTING_WORDS`, `/\bfor\b/i`) are fixed word-boundary
alternations, embedded here by direct scanning with JS `\b` / case-folding
semantics.  JS numbers are modelled as `ℚ` (every arithmetic operation the
claims touch — `+`, `* 2`, `* 1.5`, `/ 2`, `min`, `max`, comparisons — is
exact on the binary doubles the source produces).
-/

namespace STB

/-- A JS string as its list of UTF-16 code units. -/
abbrev JText := List Nat

/-- Code units of a Lean string literal (ASCII range in all uses here). -/
def str (s : String) : JText := s.data.map Char.toNat

/-- JS regex word character `\w` = `[A-Za-z0-9_]`. -/
def isWordChar (c : Nat) : Bool :=
  (65 ≤ c && c ≤ 90) || (97 ≤ c && c ≤ 122) || (48 ≤ c && c ≤ 57) || c == 95

/-- ASCII lower-casing of one code unit (JS `toLowerCase` on the ASCII range). -/
def lowerC (c : Nat) : Nat := if 65 ≤ c ∧ c ≤ 90 then c + 32 else c

/-- ASCII upper-casing of one code unit (JS `toUpperCase` on the ASCII range). -/
def upperC (c : Nat) : Nat := if 97 ≤ c ∧ c ≤ 122 then c - 32 else c

def lowerT (s : JText) : JText := s.map lowerC

def upperT (s : JText) : JText := s.map upperC

/-- Code unit at index `i`; the default (a blank) is a non-word, non-digit
character, matching out-of-range behaviour of the boundary/char tests. -/
def charAt (s : JText) (i : Nat) : Nat := s.getD i 32

/-- JS `\b` holds before position `i`. -/
def boundaryBefore (s : JText) (i : Nat) : Bool :=
  i == 0 || !isWordChar (charAt s (i - 1))

/-- JS `\b` holds at position `i` (looking at the following character). -/
def boundaryAfter (s : JText) (i : Nat) : Bool :=
  s.length ≤ i || !isWordChar (charAt s i)

/-- Case-insensitive literal match of `w` at position `i` of `s`. -/
def matchCIAt (s : JText) (i : Nat) : JText → Bool
  | [] => true
  | c :: w => decide (i < s.length) && (lowerC (charAt s i) == lowerC c) && matchCIAt s (i + 1) w

/-- The slice `s[i .. i+len)`. -/
def slice (s : JText) (i len : Nat) : JText := (s.drop i).take len

/-- Whole-word case-insensitive match of `w` at position `i` (the JS pattern
`\b w \b` with the `i` flag). -/
def wordMatchAt (s : JText) (i : Nat) (w : JText) : Bool :=
  boundaryBefore s i && matchCIAt s i w && boundaryAfter s (i + w.length)

/-- First match of the alternation `\b(alt₁|alt₂|…)\b` scanning from `i`:
JS regexes try positions left to right and alternatives in order. -/
def findWordFrom (s : JText) (alts : List JText) : Nat → Nat → Option (Nat × JText)
  | _, 0 => none
  | i, fuel + 1 =>
    match alts.find? (fun w => wordMatchAt s i w) with
    | some w => some (i, w)
    | none => if s.length ≤ i then none else findWordFrom s alts (i + 1) fuel

def findWord (s : JText) (alts : List JText) : Option (Nat × JText) :=
  findWordFrom s alts 0 (s.length + 1)

/-- All matches of the global regex `\b(alt₁|…)\b` with flags `gi`, scanning
from `i` and resuming after each match (JS `matchAll`). -/
def allWordMatchesFrom (s : JText) (alts : List JText) : Nat → Nat → List (Nat × JText)
  | _, 0 => []
  | i, fuel + 1 =>
    match findWordFrom s alts i (s.length + 1 - i) with
    | some (j, w) => (j, w) :: allWordMatchesFrom s alts (j + w.length) fuel
    | none => []

def allWordMatches (s : JText) (alts : List JText) : List (Nat × JText) :=
  allWordMatchesFrom s alts 0 (s.length + 1)

def isDigitC (c : Nat) : Bool := 48 ≤ c && c ≤ 57

/-- Length of the maximal digit run starting at `i`. -/
def digitRunLen (s : JText) (i : Nat) : Nat := ((s.drop i).takeWhile isDigitC).length

/-- Attempt of `AMOUNT_PATTERN = /\b(\d+(?:\.\d+)?)\b/` at position `i`,
with JS backtracking resolved: the integer run is maximal (a shorter run is
followed by a digit, failing the trailing `\b`); the fractional part, when
present but failing its trailing `\b`, backtracks to dropping the optional
group entirely (the following `.` then satisfies `\b`). -/
def amountMatchAt (s : JText) (i : Nat) : Option JText :=
  if boundaryBefore s i && isDigitC (charAt s i) then
    let d1 := digitRunLen s i
    if charAt s (i + d1) == 46 && isDigitC (charAt s (i + d1 + 1)) then
      let d2 := digitRunLen s (i + d1 + 1)
      if boundaryAfter s (i + d1 + 1 + d2) then some (slice s i (d1 + 1 + d2))
      else some (slice s i d1)
    else if boundaryAfter s (i + d1) then some (slice s i d1)
    else none
  else none

def findAmountFrom (s : JText) : Nat → Nat → Option JText
  | _, 0 => none
  | i, fuel + 1 =>
    match amountMatchAt s i with
    | some m => some m
    | none => if s.length ≤ i then none else findAmountFrom s (i + 1) fuel

/-- First match of `AMOUNT_PATTERN` in `s`. -/
def findAmount (s : JText) : Option JText := findAmountFrom s 0 (s.length + 1)

/-- JS `String.prototype.trim` whitespace (ASCII part). -/
def isJsWS (c : Nat) : Bool :=
  c == 32 || c == 9 || c == 10 || c == 13 || c == 11 || c == 12

def trimT (s : JText) : JText :=
  ((s.dropWhile isJsWS).reverse.dropWhile isJsWS).reverse

/-- First index of a plain (no boundary) case-insensitive occurrence of `pat`. -/
def findCIFrom (s pat : JText) : Nat → Nat → Option Nat
  | _, 0 => none
  | i, fuel + 1 =>
    if matchCIAt s i pat then some i
    else if s.length ≤ i then none else findCIFrom s pat (i + 1) fuel

def findCI (s pat : JText) : Option Nat := findCIFrom s pat 0 (s.length + 1)

/-- JS `text.replace(new RegExp(pat, 'i'), '')`: remove the first
case-insensitive occurrence of `pat`. -/
def replaceFirstCI (s pat : JText) : JText :=
  match findCI s pat with
  | some i => s.take i ++ s.drop (i + pat.length)
  | none => s

/-- `text.replace(new RegExp(`@${botName}`, 'i'), '').trim()`.  The
interpolated pattern is treated as a literal, which is exact for the
regex-metacharacter-free bot names Twitter allows (`[A-Za-z0-9_]{1,15}`). -/
def normalizeText (text botName : JText) : JText :=
  trimT (replaceFirstCI text (64 :: botName))

/-- `SUPPORTED_TOKENS = ['SOL', 'USDC', 'JUP']` — the parser's hardcoded
token vocabulary (independent of any per-bot configuration). -/
def SUPPORTED_TOKENS : List JText := [str "SOL", str "USDC", str "JUP"]

/-- Alternatives of `ACTION_PATTERN = /\b(buy|sell|swap)\b/i`. -/
def ACTION_WORDS : List JText := [str "buy", str "sell", str "swap"]

/-- Alternatives of `CONNECTING_WORDS = /\b(of|for|to|with)\b/i`. -/
def CONNECTING_WORDS : List JText := [str "of", str "for", str "to", str "with"]

/-- The uppercased matched text of a token match (`match[0].toUpperCase()`). -/
def tokenSliceUpper (s : JText) (m : Nat × JText) : JText :=
  upperT (slice s m.1 m.2.length)

structure ParsedCommand where
  action : JText
  inToken : JText
  outToken : JText
  /-- The matched numeric literal (the source applies `parseFloat` to it). -/
  amount : JText
deriving Repr, DecidableEq

/-- Token-order disambiguation of `parseCommand` once action, amount and the
full-text token matches are in hand (the body of the `buy`/`sell`/`swap`
branch cascade). -/
def pickTokens (n : JText) (action : JText) (tokenMatches : List (Nat × JText)) :
    JText × JText :=
  let positional : JText × JText :=
    (tokenSliceUpper n (tokenMatches.getD 0 (0, [])),
     tokenSliceUpper n (tokenMatches.getD 1 (0, [])))
  if action = str "buy" then
    match findWord n CONNECTING_WORDS with
    | some (wi, _) =>
      let beforeTokens := tokenMatches.filter (fun m => m.1 < wi)
      let afterTokens := tokenMatches.filter (fun m => ¬ m.1 < wi)
      match beforeTokens.head?, afterTokens.head? with
      | some b, some a => (tokenSliceUpper n b, tokenSliceUpper n a)
      | _, _ => positional
    | none => positional
  else if action = str "sell" then
    (tokenSliceUpper n (tokenMatches.getD 1 (0, [])),
     tokenSliceUpper n (tokenMatches.getD 0 (0, [])))
  else if action = str "swap" then
    match findWord n [str "for"] with
    | some (fi, _) =>
      -- the source tests `forMatch && forMatch.index`: index 0 is falsy
      if fi ≠ 0 then
        let beforeM := allWordMatches (n.take fi) SUPPORTED_TOKENS
        let afterM := allWordMatches (n.drop (fi + 3)) SUPPORTED_TOKENS
        match beforeM.getLast?, afterM.head? with
        | some b, some a =>
          (tokenSliceUpper (n.take fi) b, tokenSliceUpper (n.drop (fi + 3)) a)
        | _, _ => positional
      else positional
    | none => positional
  else positional

/-- `parseCommand(text, botName)` from the command parser module. -/
def parseCommand (text botName : JText) : Option ParsedCommand :=
  let n := normalizeText text botName
  match findWord n ACTION_WORDS with
  | none => none
  | some (ai, aw) =>
    let action := lowerT (slice n ai aw.length)
    match findAmount n with
    | none => none
    | some amt =>
      let tokenMatches := allWordMatches n SUPPORTED_TOKENS
      if tokenMatches.length < 2 then none
      else
        let pair := pickTokens n action tokenMatches
        some ⟨action, pair.1, pair.2, amt⟩

/-- Value of a digit string (`\d+`). -/
def digitsVal (l : JText) : Nat := l.foldl (fun a c => a * 10 + (c - 48)) 0

/-- `parseFloat` on a literal matched by `AMOUNT_PATTERN` (`\d+(\.\d+)?`):
the exact decimal value. -/
def parseLitQ (l : JText) : ℚ :=
  let ip := l.takeWhile (fun c => c ≠ 46)
  let rest := l.dropWhile (fun c => c ≠ 46)
  (digitsVal ip : ℚ) +
    (match rest with
     | [] => 0
     | _ :: fr => (digitsVal fr : ℚ) / (10 : ℚ) ^ fr.length)

/-- `validateCommand(parsedCommand, supportedActions, supportedTokens)`:
action and both tokens must be in the bot-configured lists and the amount
must be strictly positive.  (The source also builds a human-readable error
message for the failing check; only validity matters to the flow.) -/
def validateCommand (cmd : ParsedCommand)
    (supportedActions supportedTokens : List JText) : Bool :=
  supportedActions.contains cmd.action &&
  supportedTokens.contains cmd.inToken &&
  supportedTokens.contains cmd.outToken &&
  decide (0 < parseLitQ cmd.amount)

/-- The Trade row created by `/api/process-command` (`storage.createTrade`),
always with `status: "pending"`. -/
structure TradeRecord where
  action : JText
  inToken : JText
  outToken : JText
  amount : ℚ
  status : String
deriving Repr, DecidableEq

/-- The synchronous part of `/api/process-command`: parse, validate, and —
only when both succeed — create the Trade record (`pending`).  Returns the
created Trade, or `none` when the request is rejected with a 400 and no
Trade is created. -/
def processCommandPhase1 (text botName : JText)
    (supportedActions supportedTokens : List JText) : Option TradeRecord :=
  match parseCommand text botName with
  | none => none
  | some cmd =>
    if validateCommand cmd supportedActions supportedTokens then
      some ⟨cmd.action, cmd.inToken, cmd.outToken, parseLitQ cmd.amount, "pending"⟩
    else none

/-! ### Wallet funds check (`server/services/solana.ts`) -/

/-- `validateWalletFunds(publicKey, requiredAmount, transactionFee)`: the
balance fetch either yields a balance or throws; a throw is caught and
reported as `false` (fail-closed), otherwise the check is
`balance >= requiredAmount + transactionFee`. -/
def validateWalletFunds (balanceResult : Except Unit ℚ)
    (requiredAmount transactionFee : ℚ) : Bool :=
  match balanceResult with
  | .ok balance => decide (requiredAmount + transactionFee ≤ balance)
  | .error _ => false

/-! ### Trade execution flow of `/api/process-command` (after the response
is sent) -/

/-- Outcome of the `executeJupiterSwap` call as observed by the caller:
a successful result, a result with `success: false`, or a thrown error. -/
inductive SwapAttempt where
  | succeeds (signature : String) (outputAmount : ℚ)
  | fails (error : String)
  | throws
deriving Repr, DecidableEq

/-- The swap-result shape consumed by the flow (`success`, `signature`,
`outputAmount`). -/
structure SwapResultM where
  success : Bool
  signature : String
  outputAmount : ℚ
deriving Repr, DecidableEq

/-- One `storage.updateTradeStatus(id, status, signature?, error?)` call. -/
structure TradeUpdate where
  status : String
  signature : Option String
  errorMessage : Option String
deriving Repr, DecidableEq

/-- Observable effects of the post-response execution flow. -/
structure ExecTrace where
  /-- Whether `executeJupiterSwap` was invoked. -/
  swapInvoked : Bool
  /-- The swap result the flow settled on (real or simulated). -/
  result : Option SwapResultM
  /-- The `updateTradeStatus` calls, in order. -/
  updates : List TradeUpdate
deriving Repr, DecidableEq

/-- `simulatedSwapResult` from the flow: `signature: 'simulated_' + Date.now()`,
`outputAmount: (parseFloat(trade.amount) * 2).toString()`. -/
def simulatedSwapResult (amount : ℚ) (nowMs : Nat) : SwapResultM :=
  { success := true
    signature := "simulated_" ++ toString nowMs
    outputAmount := amount * 2 }

/-- The post-response execution flow of `/api/process-command` for a freshly
created `pending` Trade: look up wallet and config, run the funds check,
then attempt the Jupiter swap, replacing a failed or throwing attempt by
`simulatedSwapResult`, and record the terminal status update. -/
def runTradeExecution (walletFound configFound : Bool)
    (balanceResult : Except Unit ℚ) (amount transactionFee : ℚ)
    (attempt : SwapAttempt) (nowMs : Nat) : ExecTrace :=
  if !walletFound then
    ⟨false, none, [⟨"failed", none, some "Wallet not found"⟩]⟩
  else if !configFound then
    ⟨false, none, [⟨"failed", none, some "Bot configuration not found"⟩]⟩
  else if !validateWalletFunds balanceResult amount transactionFee then
    ⟨false, none, [⟨"failed", none, some "Insufficient funds"⟩]⟩
  else
    let simulated := simulatedSwapResult amount nowMs
    let swapResult : SwapResultM :=
      match attempt with
      | .succeeds sig out => { success := true, signature := sig, outputAmount := out }
      | .fails _ => simulated
      | .throws => simulated
    if !swapResult.success then
      -- dead in practice: the fallback always carries `success: true`
      ⟨true, some swapResult, [⟨"failed", some swapResult.signature, some "swap error"⟩]⟩
    else
      ⟨true, some swapResult, [⟨"completed", some swapResult.signature, none⟩]⟩

/-! ### Polling scheduler (`pollBotMentions`) -/

def DEFAULT_POLL_INTERVAL : ℚ := 60
def MIN_POLL_INTERVAL : ℚ := 30
def MAX_BACKOFF_SECONDS : ℚ := 3600
def BASE_BACKOFF_MULTIPLIER : ℚ := 2

/-- The per-bot `twitter_webhooks` fields the poll step reads.  Tweet ids
are JS strings, kept as `JText`; the `<` of `List ℕ` is exactly the JS
string comparison (lexicographic on UTF-16 code units). -/
structure WebhookState where
  lastMentionId : Option JText
  backoffSeconds : Option ℚ
deriving Repr, DecidableEq

/-- `webhook.lastMentionId || undefined` (the empty string collapses). -/
def lastMentionOf (w : WebhookState) : Option JText :=
  match w.lastMentionId with
  | some s => if s = [] then none else some s
  | none => none

/-- `webhook.backoffSeconds || DEFAULT_POLL_INTERVAL` (JS `||`: `0` and
missing both fall back to the default). -/
def pollIntervalOf (w : WebhookState) : ℚ :=
  match w.backoffSeconds with
  | some b => if b = 0 then DEFAULT_POLL_INTERVAL else b
  | none => DEFAULT_POLL_INTERVAL

/-- Outcome of the `getMentions` call inside `pollBotMentions`. -/
inductive PollFetch where
  /-- Mentions returned by the API, newest first, as a list of tweet ids. -/
  | ok (mentions : List JText)
  /-- An error with `code === 429`, optionally carrying `rateLimit.reset`
  (epoch seconds). -/
  | rateLimitError (reset : Option ℚ)
  | otherError
deriving Repr, DecidableEq

/-- What `pollBotMentions` persists for one poll attempt. -/
structure PollOutcome where
  /-- The interval written by `storage.updatePollSchedule`. -/
  newBackoffSeconds : ℚ
  /-- The next poll time written by `storage.updatePollSchedule` (ms). -/
  nextPollTime : ℚ
  /-- The argument of `storage.updateLastMentionId`, when called. -/
  lastMentionWrite : Option JText
deriving Repr, DecidableEq

/-- The `highestTweetId` fold: starting from `lastMentionId || ''`, take
each id that is strictly above the accumulator
(`!highestTweetId || mention.id > highestTweetId`, JS string comparison). -/
def highestId (init : JText) (mentions : List JText) : JText :=
  mentions.foldl (fun h id => if h = [] ∨ h < id then id else h) init

/-- One `pollBotMentions` attempt as a pure step: given the webhook row, the
`getMentions` outcome and `Date.now()`, compute the persisted schedule and
watermark updates. -/
def pollBotMentionsStep (w : WebhookState) (fetch : PollFetch) (nowMs : ℚ) :
    PollOutcome :=
  let pollInterval := pollIntervalOf w
  match fetch with
  | .ok mentions =>
    let newPollInterval :=
      if 0 < mentions.length then max MIN_POLL_INTERVAL (pollInterval / 2)
      else if pollInterval < DEFAULT_POLL_INTERVAL then
        min DEFAULT_POLL_INTERVAL (pollInterval * (3 / 2))
      else pollInterval
    let nextPollTime := nowMs + newPollInterval * 1000
    let write : Option JText :=
      if 0 < mentions.length then
        -- mentions are processed oldest first: `[...mentions].reverse()`
        let h := highestId ((lastMentionOf w).getD []) mentions.reverse
        if h ≠ [] ∧ lastMentionOf w ≠ some h then some h else none
      else none
    ⟨newPollInterval, nextPollTime, write⟩
  | .rateLimitError reset =>
    let newBackoffSeconds := min (pollInterval * BASE_BACKOFF_MULTIPLIER) MAX_BACKOFF_SECONDS
    let nextPollTime :=
      match reset with
      | some r => r * 1000 + 5000
      | none => nowMs + newBackoffSeconds * 1000
    ⟨newBackoffSeconds, nextPollTime, none⟩
  | .otherError => ⟨pollInterval, nowMs + pollInterval * 1000, none⟩

/-- The backoff recurrence applied on each rate-limit hit. -/
def backoffStep (b : ℚ) : ℚ := min (b * BASE_BACKOFF_MULTIPLIER) MAX_BACKOFF_SECONDS

/-! ### Rate-limit tracker (`rateLimits` map in the Twitter service) -/

/-- One entry of the `rateLimits` record. -/
structure LimitInfo where
  reset : ℚ
  isRateLimited : Bool
deriving Repr, DecidableEq

/-- `isRateLimited(endpoint)` acting on that endpoint's entry: returns the
boolean answer and the (possibly lazily cleared) entry. -/
def isRateLimited (info : Option LimitInfo) (nowSec : ℚ) :
    Bool × Option LimitInfo :=
  match info with
  | some li =>
    if li.isRateLimited then
      if nowSec < li.reset then (true, some li)
      else (false, some { li with isRateLimited := false })
    else (false, some li)
  | none => (false, none)

/-- `updateRateLimit(endpoint, reset, isLimited)`: overwrite the entry. -/
def updateRateLimit (reset : ℚ) (isLimited : Bool) : Option LimitInfo :=
  some { reset := reset, isRateLimited := isLimited }

/-! ## Supporting lemmas -/

theorem validateWalletFunds_ok (b requiredAmount transactionFee : ℚ) :
    validateWalletFunds (.ok b) requiredAmount transactionFee =
      decide (requiredAmount + transactionFee ≤ b) := rfl

theorem backoffStep_le_max (b : ℚ) : backoffStep b ≤ MAX_BACKOFF_SECONDS :=
  min_le_right _ _

theorem backoffStep_pos (b : ℚ) (hb : 0 < b) : 0 < backoffStep b := by
  have h2 : (0 : ℚ) < b * BASE_BACKOFF_MULTIPLIER := by
    unfold BASE_BACKOFF_MULTIPLIER; linarith
  have h3 : (0 : ℚ) < MAX_BACKOFF_SECONDS := by norm_num [MAX_BACKOFF_SECONDS]
  exact lt_min h2 h3

theorem le_backoffStep (b : ℚ) (hb : 0 < b) (hm : b ≤ MAX_BACKOFF_SECONDS) :
    b ≤ backoffStep b := by
  have h2 : b ≤ b * BASE_BACKOFF_MULTIPLIER := by
    unfold BASE_BACKOFF_MULTIPLIER; linarith
  exact le_min h2 hm

theorem backoffStep_iter_invariant (b : ℚ) (hb : 0 < b)
    (hm : b ≤ MAX_BACKOFF_SECONDS) :
    ∀ n, 0 < backoffStep^[n] b ∧ backoffStep^[n] b ≤ MAX_BACKOFF_SECONDS := by
  intro n
  induction n with
  | zero => exact ⟨hb, hm⟩
  | succ k ih =>
    rw [Function.iterate_succ_apply']
    exact ⟨backoffStep_pos _ ih.1, backoffStep_le_max _⟩

theorem jtext_nil_le (l : JText) : ([] : JText) ≤ l :=
  le_of_not_lt (fun h => by cases h)

theorem findWordFrom_spec (s : JText) (alts : List JText) (i fuel j : Nat)
    (w : JText) (h : findWordFrom s alts i fuel = some (j, w)) :
    wordMatchAt s j w = true ∧ w ∈ alts := by
  induction fuel generalizing i with
  | zero => simp [findWordFrom] at h
  | succ k ih =>
    unfold findWordFrom at h
    split at h
    · rename_i w' hf
      simp only [Option.some.injEq, Prod.mk.injEq] at h
      obtain ⟨rfl, rfl⟩ := h
      exact ⟨List.find?_some hf, List.mem_of_find?_eq_some hf⟩
    · split at h
      · simp at h
      · exact ih _ h

theorem allWordMatchesFrom_spec (s : JText) (alts : List JText) (i fuel : Nat)
    (m : Nat × JText) (h : m ∈ allWordMatchesFrom s alts i fuel) :
    wordMatchAt s m.1 m.2 = true ∧ m.2 ∈ alts := by
  induction fuel generalizing i with
  | zero => simp [allWordMatchesFrom] at h
  | succ k ih =>
    unfold allWordMatchesFrom at h
    split at h
    · rename_i j w hf
      rcases List.mem_cons.mp h with rfl | hmem
      · exact findWordFrom_spec s alts i _ j w hf
      · exact ih _ hmem
    · simp at h

theorem allWordMatches_spec (s : JText) (alts : List JText) (m : Nat × JText)
    (h : m ∈ allWordMatches s alts) :
    wordMatchAt s m.1 m.2 = true ∧ m.2 ∈ alts :=
  allWordMatchesFrom_spec s alts 0 _ m h

theorem slice_succ (s : JText) (i n : Nat) (h : i < s.length) :
    slice s i (n + 1) = charAt s i :: slice s (i + 1) n := by
  unfold slice charAt
  rw [List.drop_eq_getElem_cons h, List.getD_eq_getElem s 32 h, List.take_succ_cons]

theorem matchCIAt_lower (s : JText) (w : JText) (i : Nat)
    (h : matchCIAt s i w = true) : lowerT (slice s i w.length) = lowerT w := by
  induction w generalizing i with
  | nil => simp [slice, lowerT]
  | cons c t ih =>
    unfold matchCIAt at h
    simp only [Bool.and_eq_true, decide_eq_true_eq, beq_iff_eq] at h
    obtain ⟨⟨hlen, hc⟩, ht⟩ := h
    rw [List.length_cons, slice_succ s i t.length hlen]
    simp only [lowerT, List.map_cons] at *
    rw [hc, ih (i + 1) ht]

/-- An ASCII-case-insensitive match of an uppercase-letter word, uppercased,
is that word (what `match[0].toUpperCase()` returns for a token match). -/
theorem upperC_of_lowerC_eq (a c : Nat) (hc : 65 ≤ c ∧ c ≤ 90)
    (h : lowerC a = lowerC c) : upperC a = c := by
  unfold lowerC at h
  unfold upperC
  split_ifs at h <;> split_ifs <;> omega

theorem matchCIAt_upper (s : JText) (w : JText) (i : Nat)
    (h : matchCIAt s i w = true) (hw : ∀ c ∈ w, 65 ≤ c ∧ c ≤ 90) :
    upperT (slice s i w.length) = w := by
  induction w generalizing i with
  | nil => simp [slice, upperT]
  | cons c t ih =>
    unfold matchCIAt at h
    simp only [Bool.and_eq_true, decide_eq_true_eq, beq_iff_eq] at h
    obtain ⟨⟨hlen, hc⟩, ht⟩ := h
    rw [List.length_cons, slice_succ s i t.length hlen]
    have htail := ih (i + 1) ht (fun x hx => hw x (List.mem_cons_of_mem c hx))
    simp only [upperT, List.map_cons] at htail ⊢
    rw [upperC_of_lowerC_eq _ c (hw c (List.mem_cons_self c t)) hc, htail]

theorem supported_tokens_upper (w : JText) (hw : w ∈ SUPPORTED_TOKENS) :
    ∀ c ∈ w, 65 ≤ c ∧ c ≤ 90 := by
  simp only [SUPPORTED_TOKENS, List.mem_cons, List.not_mem_nil, or_false] at hw
  rcases hw with rfl | rfl | rfl <;> decide

/-- Every token match, uppercased, is the canonical uppercase token it
matched. -/
theorem tokenSliceUpper_of_match (s : JText) (m : Nat × JText)
    (h : m ∈ allWordMatches s SUPPORTED_TOKENS) :
    tokenSliceUpper s m = m.2 ∧ tokenSliceUpper s m ∈ SUPPORTED_TOKENS := by
  obtain ⟨hmatch, hmem⟩ := allWordMatches_spec s SUPPORTED_TOKENS m h
  unfold wordMatchAt at hmatch
  simp only [Bool.and_eq_true] at hmatch
  have heq : tokenSliceUpper s m = m.2 :=
    matchCIAt_upper s m.2 m.1 hmatch.1.2 (supported_tokens_upper m.2 hmem)
  exact ⟨heq, heq ▸ hmem⟩

theorem wordMatchAt_pos (s : JText) (i : Nat) (w : JText)
    (h : wordMatchAt s i w = true) (hw : w ≠ []) : 0 < s.length := by
  unfold wordMatchAt at h
  simp only [Bool.and_eq_true] at h
  cases w with
  | nil => exact absurd rfl hw
  | cons c t =>
    have hm := h.1.2
    unfold matchCIAt at hm
    simp only [Bool.and_eq_true, decide_eq_true_eq] at hm
    omega

theorem getD_zero_mem (l : List (Nat × JText)) (d : Nat × JText)
    (h : 0 < l.length) : l.getD 0 d ∈ l := by
  cases l with
  | nil => simp at h
  | cons a t => exact List.mem_cons_self a t

theorem getD_one_mem (l : List (Nat × JText)) (d : Nat × JText)
    (h : 2 ≤ l.length) : l.getD 1 d ∈ l := by
  match l with
  | [] => simp at h
  | [a] => simp at h
  | a :: b :: t => exact List.mem_cons_of_mem a (List.mem_cons_self b t)

theorem supported_upperT_fixed (t : JText) (ht : t ∈ SUPPORTED_TOKENS) :
    upperT t = t := by
  simp only [SUPPORTED_TOKENS, List.mem_cons, List.not_mem_nil, or_false] at ht
  rcases ht with rfl | rfl | rfl <;> decide

/-- Both components of `pickTokens` on the full-text token matches are
canonical supported tokens. -/
theorem pickTokens_mem (n action : JText)
    (h2 : 2 ≤ (allWordMatches n SUPPORTED_TOKENS).length) :
    (pickTokens n action (allWordMatches n SUPPORTED_TOKENS)).1 ∈ SUPPORTED_TOKENS ∧
    (pickTokens n action (allWordMatches n SUPPORTED_TOKENS)).2 ∈ SUPPORTED_TOKENS := by
  have hpos0 : tokenSliceUpper n
      ((allWordMatches n SUPPORTED_TOKENS).getD 0 (0, [])) ∈ SUPPORTED_TOKENS :=
    (tokenSliceUpper_of_match n _ (getD_zero_mem _ _ (by omega))).2
  have hpos1 : tokenSliceUpper n
      ((allWordMatches n SUPPORTED_TOKENS).getD 1 (0, [])) ∈ SUPPORTED_TOKENS :=
    (tokenSliceUpper_of_match n _ (getD_one_mem _ _ h2)).2
  simp only [pickTokens]
  split_ifs with hb hs hw
  · -- buy branch
    split
    · split
      · rename_i b a hhb hha
        have hbm : b ∈ allWordMatches n SUPPORTED_TOKENS :=
          List.mem_of_mem_filter (List.mem_of_mem_head? hhb)
        have ham : a ∈ allWordMatches n SUPPORTED_TOKENS :=
          List.mem_of_mem_filter (List.mem_of_mem_head? hha)
        exact ⟨(tokenSliceUpper_of_match n _ hbm).2,
          (tokenSliceUpper_of_match n _ ham).2⟩
      · exact ⟨hpos0, hpos1⟩
    · exact ⟨hpos0, hpos1⟩
  · -- sell branch
    exact ⟨hpos1, hpos0⟩
  · -- swap branch
    split
    · rename_i fi fw hfw
      split
      · split
        · rename_i b a hhb hha
          have hbm : b ∈ allWordMatches ((n.take fi)) SUPPORTED_TOKENS :=
            List.mem_of_mem_getLast? hhb
          have ham : a ∈ allWordMatches (n.drop (fi + 3)) SUPPORTED_TOKENS :=
            List.mem_of_mem_head? hha
          exact ⟨(tokenSliceUpper_of_match _ _ hbm).2,
            (tokenSliceUpper_of_match _ _ ham).2⟩
        · exact ⟨hpos0, hpos1⟩
      · exact ⟨hpos0, hpos1⟩
    · exact ⟨hpos0, hpos1⟩
  · exact ⟨hpos0, hpos1⟩

theorem supported_tokens_ne_nil (w : JText) (hw : w ∈ SUPPORTED_TOKENS) :
    w ≠ [] := by
  simp only [SUPPORTED_TOKENS, List.mem_cons, List.not_mem_nil, or_false] at hw
  rcases hw with rfl | rfl | rfl <;> decide

theorem highestId_init_le (l : List JText) (a : JText) : a ≤ highestId a l := by
  induction l generalizing a with
  | nil => exact le_refl a
  | cons x t ih =>
    refine le_trans ?_ (ih _)
    by_cases hc : a = [] ∨ a < x
    · simp only [highestId, List.foldl_cons, if_pos hc]
      rcases hc with hc | hc
      · exact hc ▸ jtext_nil_le x
      · exact le_of_lt hc
    · simp only [highestId, List.foldl_cons, if_neg hc]
      exact le_refl a

theorem highestId_mem_or_init (l : List JText) (a : JText) :
    highestId a l = a ∨ highestId a l ∈ l := by
  induction l generalizing a with
  | nil => exact .inl rfl
  | cons x t ih =>
    have step : highestId a (x :: t) = highestId (if a = [] ∨ a < x then x else a) t := by
      simp only [highestId, List.foldl_cons]
    rw [step]
    rcases ih (if a = [] ∨ a < x then x else a) with h | h
    · rw [h]
      split
      · exact .inr (List.mem_cons_self _ _)
      · exact .inl rfl
    · exact .inr (List.mem_cons_of_mem _ h)

theorem le_highestId_of_mem (l : List JText) (a id : JText) (h : id ∈ l) :
    id ≤ highestId a l := by
  induction l generalizing a with
  | nil => cases h
  | cons x t ih =>
    have step : highestId a (x :: t) = highestId (if a = [] ∨ a < x then x else a) t := by
      simp only [highestId, List.foldl_cons]
    rw [step]
    rcases List.mem_cons.mp h with rfl | hmem
    · refine le_trans ?_ (highestId_init_le t _)
      split
      · exact le_refl _
      · rename_i hc
        push_neg at hc
        exact hc.2
    · exact ih _ hmem

/-! ## Claims -/

/-- C1: whenever the funds check fails because the wallet balance is below
`amount + transactionFee`, the Trade (created `pending`) is updated exactly
once, directly to `failed` with reason "Insufficient funds", and
`executeJupiterSwap` is never invoked. -/
theorem claim_C1 (balance amount transactionFee : ℚ) (attempt : SwapAttempt)
    (nowMs : Nat) (hin : balance < amount + transactionFee) :
    (∀ text botName sa st tr,
      processCommandPhase1 text botName sa st = some tr → tr.status = "pending") ∧
    runTradeExecution true true (.ok balance) amount transactionFee attempt nowMs =
      ⟨false, none, [⟨"failed", none, some "Insufficient funds"⟩]⟩ := by
  constructor
  · intro text botName sa st tr h
    unfold processCommandPhase1 at h
    split at h
    · simp at h
    · split at h
      · simp only [Option.some.injEq] at h
        rw [← h]
      · simp at h
  · have hfc : validateWalletFunds (.ok balance) amount transactionFee = false := by
      rw [validateWalletFunds_ok, decide_eq_false_iff_not]
      linarith
    simp [runTradeExecution, hfc]

/-- C1 witness: a concrete insufficient-balance run. -/
theorem claim_C1_witness :
    (∀ text botName sa st tr,
      processCommandPhase1 text botName sa st = some tr → tr.status = "pending") ∧
    runTradeExecution true true (.ok 0) 1 (1 / 100) .throws 0 =
      ⟨false, none, [⟨"failed", none, some "Insufficient funds"⟩]⟩ :=
  claim_C1 0 1 (1 / 100) .throws 0 (by norm_num)

/-- C2: when the Jupiter swap attempt returns `success: false` or throws,
the flow substitutes the simulated result — signature
`"simulated_" + Date.now()`, output amount `amount * 2` — and marks the
Trade `completed` with that synthetic signature. -/
theorem claim_C2 (balance amount transactionFee : ℚ) (attempt : SwapAttempt)
    (nowMs : Nat) (hfunds : amount + transactionFee ≤ balance)
    (hfail : (∃ e, attempt = .fails e) ∨ attempt = .throws) :
    runTradeExecution true true (.ok balance) amount transactionFee attempt nowMs =
      ⟨true, some (simulatedSwapResult amount nowMs),
        [⟨"completed", some ("simulated_" ++ toString nowMs), none⟩]⟩ ∧
    (simulatedSwapResult amount nowMs).signature = "simulated_" ++ toString nowMs ∧
    (simulatedSwapResult amount nowMs).outputAmount = amount * 2 := by
  have hfc : validateWalletFunds (.ok balance) amount transactionFee = true := by
    rw [validateWalletFunds_ok, decide_eq_true_iff]
    exact hfunds
  refine ⟨?_, rfl, rfl⟩
  rcases hfail with ⟨e, he⟩ | he <;> subst he <;>
    simp [runTradeExecution, hfc, simulatedSwapResult]

/-- C2 witness: a concrete failing-swap run. -/
theorem claim_C2_witness :
    runTradeExecution true true (.ok 10) 1 (1 / 100) (.fails "network") 5 =
      ⟨true, some (simulatedSwapResult 1 5),
        [⟨"completed", some ("simulated_" ++ toString 5), none⟩]⟩ ∧
    (simulatedSwapResult 1 5).signature = "simulated_" ++ toString 5 ∧
    (simulatedSwapResult 1 5).outputAmount = 1 * 2 :=
  claim_C2 10 1 (1 / 100) (.fails "network") 5 (by norm_num) (.inl ⟨"network", rfl⟩)

/-- C3: for a command in the `swap` branch whose normalized text has a
first whole-word `for` with at least one supported-token match before it
and at least one after it, the parser picks the last token match preceding
`for` as `inToken` and the first token match following it as `outToken`
(leading/trailing whitespace is removed by the normalization, so padded
inputs normalize to the same text and get the same result). -/
theorem claim_C3 (text botName n : JText) (hn : n = normalizeText text botName)
    (ai : Nat) (hA : findWord n ACTION_WORDS = some (ai, str "swap"))
    (amt : JText) (hAmt : findAmount n = some amt)
    (hTok : 2 ≤ (allWordMatches n SUPPORTED_TOKENS).length)
    (fi : Nat) (hFor : findWord n [str "for"] = some (fi, str "for"))
    (b a : Nat × JText)
    (hB : (allWordMatches (n.take fi) SUPPORTED_TOKENS).getLast? = some b)
    (hAf : (allWordMatches (n.drop (fi + 3)) SUPPORTED_TOKENS).head? = some a) :
    parseCommand text botName =
      some ⟨str "swap", tokenSliceUpper (n.take fi) b,
        tokenSliceUpper (n.drop (fi + 3)) a, amt⟩ := by
  subst hn
  have hact : lowerT (slice (normalizeText text botName) ai (str "swap").length) =
      str "swap" := by
    have hspec := findWordFrom_spec _ ACTION_WORDS 0 _ ai (str "swap") hA
    have hm := hspec.1
    unfold wordMatchAt at hm
    simp only [Bool.and_eq_true] at hm
    rw [matchCIAt_lower _ (str "swap") ai hm.1.2]
    decide
  have hbm : b ∈ allWordMatches ((normalizeText text botName).take fi)
      SUPPORTED_TOKENS := List.mem_of_mem_getLast? hB
  have hbspec := allWordMatches_spec _ _ _ hbm
  have hpos : 0 < ((normalizeText text botName).take fi).length :=
    wordMatchAt_pos _ _ _ hbspec.1 (supported_tokens_ne_nil _ hbspec.2)
  have hfi : fi ≠ 0 := by
    intro hfi0
    rw [hfi0] at hpos
    simp at hpos
  have hpick : pickTokens (normalizeText text botName) (str "swap")
      (allWordMatches (normalizeText text botName) SUPPORTED_TOKENS) =
      (tokenSliceUpper ((normalizeText text botName).take fi) b,
       tokenSliceUpper ((normalizeText text botName).drop (fi + 3)) a) := by
    simp only [pickTokens, hFor, hB, hAf]
    rw [if_neg (show ¬(str "swap" = str "buy") from by decide),
      if_neg (show ¬(str "swap" = str "sell") from by decide)]
    simp only [eq_self_iff_true, if_true]
    rw [if_pos hfi]
  simp only [parseCommand, hA, hAmt]
  rw [if_neg (not_lt.mpr hTok), hact, hpick]

set_option maxHeartbeats 1000000 in
/-- C3 witness: `"@tradebot swap 0.01 SOL for JUP"` — the token before
`for` is `SOL`, the one after is `JUP`. -/
theorem claim_C3_witness :
    parseCommand (str "@tradebot swap 0.01 SOL for JUP") (str "tradebot") =
      some ⟨str "swap",
        tokenSliceUpper
          ((normalizeText (str "@tradebot swap 0.01 SOL for JUP")
            (str "tradebot")).take 14) (10, str "SOL"),
        tokenSliceUpper
          ((normalizeText (str "@tradebot swap 0.01 SOL for JUP")
            (str "tradebot")).drop 17) (1, str "JUP"),
        str "0.01"⟩ :=
  claim_C3 _ _ _ rfl 0 (by decide) (str "0.01") (by decide) (by decide)
    14 (by decide) (10, str "SOL") (1, str "JUP") (by decide) (by decide)

set_option maxHeartbeats 1600000 in
/-- C7 counterexample: the raw text `"bu@boty 5 sol for usdc"` contains no
action verb — no whole-word and not even a substring occurrence of
buy/sell/swap — yet with bot name `"bot"` the mention-stripping splices
`"bu" + "y"` into `"buy"`, `parseCommand` succeeds, and with buy/SOL/USDC
in the bot's configuration a Trade record is created. -/
theorem claim_C7_counterexample :
    findWord (str "bu@boty 5 sol for usdc") ACTION_WORDS = none ∧
    (∀ aw ∈ ACTION_WORDS, findCI (str "bu@boty 5 sol for usdc") aw = none) ∧
    parseCommand (str "bu@boty 5 sol for usdc") (str "bot") =
      some ⟨str "buy", str "SOL", str "USDC", str "5"⟩ ∧
    processCommandPhase1 (str "bu@boty 5 sol for usdc") (str "bot")
      [str "buy"] [str "SOL", str "USDC"] =
      some ⟨str "buy", str "SOL", str "USDC", parseLitQ (str "5"), "pending"⟩ := by
  have h5 : parseLitQ (str "5") = 5 := by
    simp only [parseLitQ,
      show (str "5").takeWhile (fun c => c ≠ 46) = [53] from by decide,
      show (str "5").dropWhile (fun c => c ≠ 46) = [] from by decide,
      show digitsVal [53] = 5 from by decide]
    norm_num
  have hval : validateCommand ⟨str "buy", str "SOL", str "USDC", str "5"⟩
      [str "buy"] [str "SOL", str "USDC"] = true := by
    simp only [validateCommand, h5, Bool.and_eq_true, decide_eq_true_eq]
    refine ⟨⟨⟨by decide, by decide⟩, by decide⟩, by norm_num⟩
  refine ⟨by decide, by decide, by decide, ?_⟩
  simp only [processCommandPhase1, show parseCommand (str "bu@boty 5 sol for usdc")
    (str "bot") = some ⟨str "buy", str "SOL", str "USDC", str "5"⟩ from by decide]
  rw [if_pos hval]

/-- C7 amended: for every input whose *normalized* text (bot mention
stripped, trimmed) contains no whole-word action verb, `parseCommand`
returns `null` and the processing flow creates no Trade record. -/
theorem claim_C7_amended (text botName : JText)
    (h : findWord (normalizeText text botName) ACTION_WORDS = none) :
    parseCommand text botName = none ∧
    ∀ sa st, processCommandPhase1 text botName sa st = none := by
  have hp : parseCommand text botName = none := by
    simp only [parseCommand, h]
  refine ⟨hp, fun sa st => ?_⟩
  simp only [processCommandPhase1, hp]

/-- C7 witness: a verb-free text parses to nothing and creates no Trade. -/
theorem claim_C7_amended_witness :
    parseCommand (str "hello 5 sol usdc") (str "bot") = none ∧
    ∀ sa st, processCommandPhase1 (str "hello 5 sol usdc") (str "bot") sa st = none :=
  claim_C7_amended _ _ (by decide)

/-- C4 counterexample: with `backoffSeconds = 120` (reachable after a
rate-limit backoff) and zero mentions, the persisted interval is `120`,
not `min(DEFAULT_POLL_INTERVAL, 120 * 1.5) = 60`, and it exceeds
`DEFAULT_POLL_INTERVAL`. -/
theorem claim_C4_counterexample :
    (pollBotMentionsStep ⟨none, some 120⟩ (.ok []) 0).newBackoffSeconds = 120 ∧
    min DEFAULT_POLL_INTERVAL ((120 : ℚ) * (3 / 2)) = 60 ∧
    (120 : ℚ) ≠ 60 ∧
    DEFAULT_POLL_INTERVAL <
      (pollBotMentionsStep ⟨none, some 120⟩ (.ok []) 0).newBackoffSeconds := by
  refine ⟨?_, ?_, by norm_num, ?_⟩ <;>
    norm_num [pollBotMentionsStep, pollIntervalOf, DEFAULT_POLL_INTERVAL]

/-- C4 amended: on a successful poll with zero mentions the persisted
interval is `min(DEFAULT_POLL_INTERVAL, backoffSeconds * 1.5)` only when the
current interval is below `DEFAULT_POLL_INTERVAL`; otherwise it is left
unchanged.  Hence it never exceeds
`max(backoffSeconds, DEFAULT_POLL_INTERVAL)` (but can stay above
`DEFAULT_POLL_INTERVAL` after a rate-limit backoff). -/
theorem claim_C4_amended (w : WebhookState) (nowMs : ℚ) :
    (pollBotMentionsStep w (.ok []) nowMs).newBackoffSeconds =
      (if pollIntervalOf w < DEFAULT_POLL_INTERVAL then
        min DEFAULT_POLL_INTERVAL (pollIntervalOf w * (3 / 2))
      else pollIntervalOf w) ∧
    (pollBotMentionsStep w (.ok []) nowMs).newBackoffSeconds ≤
      max (pollIntervalOf w) DEFAULT_POLL_INTERVAL := by
  constructor
  · simp [pollBotMentionsStep]
  · simp only [pollBotMentionsStep, List.length_nil, lt_irrefl, if_false]
    split
    · exact le_max_of_le_right (min_le_left _ _)
    · exact le_max_left _ _

/-- C5: after a non-empty batch of new mentions (each id above the stored
watermark, as the `since_id` fetch provides), the persisted watermark is
the maximum id of the batch — under the JS string comparison the code uses
— regardless of batch order; and any watermark write differs from the
previously stored value. -/
theorem claim_C5 :
    (∀ (w : WebhookState) (nowMs : ℚ) (ids : List JText) (m : JText),
      ids ≠ [] →
      (∀ id ∈ ids, (lastMentionOf w).getD [] < id) →
      m ∈ ids → (∀ id ∈ ids, id = m ∨ id < m) →
      (pollBotMentionsStep w (.ok ids) nowMs).lastMentionWrite = some m) ∧
    (∀ (w : WebhookState) (nowMs : ℚ) (ids : List JText) (v : JText),
      (pollBotMentionsStep w (.ok ids) nowMs).lastMentionWrite = some v →
      lastMentionOf w ≠ some v) := by
  constructor
  · intro w nowMs ids m hne hgt hm hmax
    have hlen : 0 < ids.length := List.length_pos.mpr hne
    set r := highestId ((lastMentionOf w).getD []) ids.reverse with hr
    have hmr : m ≤ r := le_highestId_of_mem _ _ _ (List.mem_reverse.mpr hm)
    have hrm : r = m := by
      rcases highestId_mem_or_init ids.reverse ((lastMentionOf w).getD []) with h | h
      · exact absurd (lt_of_lt_of_le (hgt m hm) (h ▸ hmr)) (lt_irrefl _)
      · rcases hmax _ (List.mem_reverse.mp h) with h2 | h2
        · exact h2
        · exact absurd (lt_of_le_of_lt hmr h2) (lt_irrefl _)
    have hlt : (lastMentionOf w).getD [] < r := lt_of_lt_of_le (hgt m hm) hmr
    have hguard : r ≠ [] ∧ lastMentionOf w ≠ some r := by
      constructor
      · intro he
        rw [he] at hlt
        exact absurd hlt (not_lt.mpr (jtext_nil_le _))
      · intro he
        rw [he] at hlt
        simp at hlt
    simp only [pollBotMentionsStep]
    rw [if_pos hlen, ← hr, if_pos hguard, hrm]
  · intro w nowMs ids v h
    simp only [pollBotMentionsStep] at h
    split_ifs at h with h1 h2
    simp only [Option.some.injEq] at h
    rw [← h]
    exact h2.2

/-- C5 witness: batch with ids "5" then "3" (processed oldest first) from an
empty watermark persists "5". -/
theorem claim_C5_witness :
    (pollBotMentionsStep ⟨none, some 60⟩ (.ok [str "5", str "3"]) 0).lastMentionWrite =
      some (str "5") :=
  claim_C5.1 ⟨none, some 60⟩ 0 [str "5", str "3"] (str "5")
    (by decide) (by decide) (by decide) (by decide)

/-- C6: on a rate-limit error the persisted backoff is
`min(backoffSeconds * BACKOFF_MULTIPLIER, MAX_BACKOFF_SECONDS)`, and across
repeated rate-limit hits the backoff sequence is monotonically
non-decreasing and bounded by `MAX_BACKOFF_SECONDS`. -/
theorem claim_C6 (w : WebhookState) (reset : Option ℚ) (nowMs : ℚ) (b : ℚ)
    (hb : 0 < b) (hm : b ≤ MAX_BACKOFF_SECONDS) :
    (pollBotMentionsStep w (.rateLimitError reset) nowMs).newBackoffSeconds =
      min (pollIntervalOf w * BASE_BACKOFF_MULTIPLIER) MAX_BACKOFF_SECONDS ∧
    (pollBotMentionsStep w (.rateLimitError reset) nowMs).newBackoffSeconds =
      backoffStep (pollIntervalOf w) ∧
    (∀ n, backoffStep^[n] b ≤ backoffStep^[n + 1] b ∧
      backoffStep^[n] b ≤ MAX_BACKOFF_SECONDS) := by
  refine ⟨rfl, rfl, fun n => ?_⟩
  obtain ⟨hpos, hle⟩ := backoffStep_iter_invariant b hb hm n
  refine ⟨?_, hle⟩
  rw [Function.iterate_succ_apply']
  exact le_backoffStep _ hpos hle

/-- C6 witness: a concrete rate-limit step from a 60-second backoff. -/
theorem claim_C6_witness :
    (pollBotMentionsStep ⟨none, none⟩ (.rateLimitError none) 0).newBackoffSeconds =
      min (pollIntervalOf ⟨none, none⟩ * BASE_BACKOFF_MULTIPLIER) MAX_BACKOFF_SECONDS ∧
    (pollBotMentionsStep ⟨none, none⟩ (.rateLimitError none) 0).newBackoffSeconds =
      backoffStep (pollIntervalOf ⟨none, none⟩) ∧
    (∀ n, backoffStep^[n] 60 ≤ backoffStep^[n + 1] 60 ∧
      backoffStep^[n] 60 ≤ MAX_BACKOFF_SECONDS) :=
  claim_C6 ⟨none, none⟩ none 0 60 (by norm_num) (by norm_num [MAX_BACKOFF_SECONDS])

/-- C8: `isRateLimited` answers `true` only for an entry recorded limited
with a reset still in the future; a read at or past the reset clears the
flag as a side effect, so later reads answer `false` with no explicit
reset. -/
theorem claim_C8 :
    (∀ (info : Option LimitInfo) (nowSec : ℚ),
      (isRateLimited info nowSec).1 = true →
      ∃ r, info = updateRateLimit r true ∧ nowSec < r) ∧
    (∀ (r nowSec : ℚ), r ≤ nowSec →
      isRateLimited (some ⟨r, true⟩) nowSec = (false, some ⟨r, false⟩) ∧
      ∀ nowSec', (isRateLimited (some ⟨r, false⟩) nowSec').1 = false) := by
  constructor
  · intro info nowSec h
    match info with
    | none => simp [isRateLimited] at h
    | some li =>
      simp only [isRateLimited] at h
      split_ifs at h with h1 h2
      exact ⟨li.reset, by simp [updateRateLimit, ← h1], h2⟩
  · intro r nowSec hle
    have hnl : ¬ nowSec < r := not_lt.mpr hle
    constructor
    · simp [isRateLimited, hnl]
    · intro nowSec'
      simp [isRateLimited]

/-- C8 witness: a still-active limit reads `true`; an expired one is cleared. -/
theorem claim_C8_witness :
    (∃ r, (some ⟨5, true⟩ : Option LimitInfo) = updateRateLimit r true ∧ (3 : ℚ) < r) ∧
    (isRateLimited (some ⟨0, true⟩) 1 = (false, some ⟨0, false⟩) ∧
      ∀ nowSec', (isRateLimited (some ⟨0, false⟩) nowSec').1 = false) :=
  ⟨claim_C8.1 (some ⟨5, true⟩) 3 (by norm_num [isRateLimited]),
   claim_C8.2 0 1 (by norm_num)⟩

/-- C10: `validateWalletFunds` is fail-closed — a throwing balance fetch
yields `false`; otherwise the answer is exactly
`requiredAmount + transactionFee ≤ balance`. -/
theorem claim_C10 (balanceResult : Except Unit ℚ)
    (requiredAmount transactionFee : ℚ) :
    (balanceResult = .error () →
      validateWalletFunds balanceResult requiredAmount transactionFee = false) ∧
    (∀ b, balanceResult = .ok b →
      (validateWalletFunds balanceResult requiredAmount transactionFee = true ↔
        requiredAmount + transactionFee ≤ b)) := by
  constructor
  · intro h; subst h; rfl
  · intro b h; subst h
    rw [validateWalletFunds_ok]
    exact decide_eq_true_iff

/-- C9: whenever `parseCommand` succeeds, both tokens are uppercase members
of the hardcoded whitelist `['SOL', 'USDC', 'JUP']`; the parser takes no
per-bot configuration, so this holds independently of the bot's configured
supported-token list. -/
theorem claim_C9 (text botName : JText) (cmd : ParsedCommand)
    (h : parseCommand text botName = some cmd) :
    cmd.inToken ∈ SUPPORTED_TOKENS ∧ cmd.outToken ∈ SUPPORTED_TOKENS ∧
    upperT cmd.inToken = cmd.inToken ∧ upperT cmd.outToken = cmd.outToken := by
  have hmem : cmd.inToken ∈ SUPPORTED_TOKENS ∧ cmd.outToken ∈ SUPPORTED_TOKENS := by
    simp only [parseCommand] at h
    split at h
    · simp at h
    · split at h
      · simp at h
      · split_ifs at h with hlen
        simp only [Option.some.injEq] at h
        rw [← h]
        exact pickTokens_mem (normalizeText text botName)
          (lowerT (slice (normalizeText text botName) _ _)) (by omega)
  exact ⟨hmem.1, hmem.2, supported_upperT_fixed _ hmem.1,
    supported_upperT_fixed _ hmem.2⟩

/-- C9 witness: a concrete successful parse. -/
theorem claim_C9_witness :
    (⟨str "swap", str "SOL", str "JUP", str "0.01"⟩ : ParsedCommand).inToken ∈
      SUPPORTED_TOKENS ∧
    (⟨str "swap", str "SOL", str "JUP", str "0.01"⟩ : ParsedCommand).outToken ∈
      SUPPORTED_TOKENS ∧
    upperT (⟨str "swap", str "SOL", str "JUP", str "0.01"⟩ : ParsedCommand).inToken =
      (⟨str "swap", str "SOL", str "JUP", str "0.01"⟩ : ParsedCommand).inToken ∧
    upperT (⟨str "swap", str "SOL", str "JUP", str "0.01"⟩ : ParsedCommand).outToken =
      (⟨str "swap", str "SOL", str "JUP", str "0.01"⟩ : ParsedCommand).outToken :=
  claim_C9 (str "@tradebot swap 0.01 SOL for JUP") (str "tradebot")
    ⟨str "swap", str "SOL", str "JUP", str "0.01"⟩ (by decide)

/-- C10 witness: both branches at concrete inputs. -/
theorem claim_C10_witness :
    (validateWalletFunds (.error ()) 1 (1 / 100) = false) ∧
    (validateWalletFunds (.ok 2) 1 (1 / 100) = true ↔ (1 : ℚ) + 1 / 100 ≤ 2) :=
  ⟨(claim_C10 (.error ()) 1 (1 / 100)).1 rfl,
   (claim_C10 (.ok 2) 1 (1 / 100)).2 2 rfl⟩

end STB
